import Mathlib

/-!
Verification of the KUE training script `scripts/train_special_model.py`.

The script trains a binary logistic-regression classifier on a merged
dataset of manual seed records and external feedback records.  This file
gives a shallow embedding of the core pipeline (dataset merge, feature
extraction, standardization, numerically stable logistic, full-batch
gradient-descent trainer) over the real numbers and proves the spec
claims about it.
-/

namespace KUE

/-! ### Data model (source: record dictionaries with `id`, `label`,
`params`, `metrics` keys; every field may be absent, which we model with
`Option`) -/

/-- Simulation parameters of a record (the `params` mapping).  `du` and
`dv` appear in the data but are not used as features. -/
structure SimParams where
  du : Option ℝ
  dv : Option ℝ
  feed : Option ℝ
  kill : Option ℝ
  dt : Option ℝ
  threshold : Option ℝ
  contrast : Option ℝ
  gamma : Option ℝ
  invert : Option Bool

/-- Measured pattern statistics of a record (the `metrics` mapping). -/
structure SimMetrics where
  activity : Option ℝ
  entropy : Option ℝ
  stdU : Option ℝ
  stdV : Option ℝ

/-- A labeled training example.  `label` is absent or an arbitrary string;
`params` and `metrics` may be absent entirely. -/
structure Record where
  id : String
  label : Option String
  params : Option SimParams
  metrics : Option SimMetrics

/-- The empty `params` mapping: `entry.get('params', {})` yields a mapping
where every individual lookup misses. -/
def emptyParams : SimParams :=
  ⟨none, none, none, none, none, none, none, none, none⟩

/-- The empty `metrics` mapping. -/
def emptyMetrics : SimMetrics :=
  ⟨none, none, none, none⟩

/-! ### Manual seeds (source: `MANUAL_SEEDS`, lines 11-201) -/

/-- Embedding of the `MANUAL_SEEDS` table: the nine built-in manually
labeled records, transcribed field by field from the source. -/
def MANUAL_SEEDS : List Record :=
  [{ id := "manual-1", label := some "special",
     params := some
       { du := some 0.041, dv := some 0.028, feed := some 0.015,
         kill := some 0.044, dt := some 2.0, threshold := some 0.21,
         contrast := some 2.45, gamma := some 0.4, invert := some false },
     metrics := some
       { activity := some 0.0, entropy := some 0.34, stdU := some 0.262,
         stdV := some 0.074 } },
   { id := "manual-2", label := some "special",
     params := some
       { du := some 1.0, dv := some 0.266, feed := some 0.1,
         kill := some 0.054, dt := some 1.0, threshold := some 0.2,
         contrast := some 1.5, gamma := some 1.1, invert := some false },
     metrics := some
       { activity := some 0.0, entropy := some 0.84, stdU := some 0.208,
         stdV := some 0.14 } },
   { id := "manual-3", label := some "special",
     params := some
       { du := some 1.0, dv := some 0.306, feed := some 0.023,
         kill := some 0.06, dt := some 1.0, threshold := some 0.2,
         contrast := some 1.5, gamma := some 1.1, invert := some false },
     metrics := some
       { activity := some 0.0, entropy := some 1.35, stdU := some 0.123,
         stdV := some 0.125 } },
   { id := "manual-4", label := some "special",
     params := some
       { du := some 0.547, dv := some 0.089, feed := some 0.084,
         kill := some 0.077, dt := some 1.5, threshold := some 0.2,
         contrast := some 5.0, gamma := some 0.2, invert := some false },
     metrics := some
       { activity := some 0.0, entropy := some 0.6, stdU := some 0.201,
         stdV := some 0.169 } },
   { id := "manual-5", label := some "special",
     params := some
       { du := some 0.621, dv := some 0.07, feed := some 0.1,
         kill := some 0.07, dt := some 1.5, threshold := some 0.2,
         contrast := some 5.0, gamma := some 0.2, invert := some false },
     metrics := some
       { activity := some 0.0, entropy := some 1.24, stdU := some 0.264,
         stdV := some 0.25 } },
   { id := "manual-6", label := some "special",
     params := some
       { du := some 0.722, dv := some 0.08, feed := some 0.02,
         kill := some 0.056, dt := some 1.5, threshold := some 0.16,
         contrast := some 5.0, gamma := some 0.2, invert := some true },
     metrics := some
       { activity := some 0.0, entropy := some 2.61, stdU := some 0.116,
         stdV := some 0.329 } },
   { id := "manual-7", label := some "special",
     params := some
       { du := some 0.621, dv := some 0.07, feed := some 0.003,
         kill := some 0.021, dt := some 1.5, threshold := some 0.2,
         contrast := some 5.0, gamma := some 0.2, invert := some false },
     metrics := some
       { activity := some 0.0, entropy := some 0.0, stdU := some 0.0,
         stdV := some 0.0 } },
   { id := "manual-8", label := some "special",
     params := some
       { du := some 0.043, dv := some 0.009, feed := some 0.002,
         kill := some 0.021, dt := some 1.5, threshold := some 0.2,
         contrast := some 5.0, gamma := some 0.2, invert := some false },
     metrics := some
       { activity := some 0.0, entropy := some 0.73, stdU := some 0.339,
         stdV := some 0.074 } },
   { id := "manual-9", label := some "special",
     params := some
       { du := some 0.043, dv := some 0.009, feed := some 0.001,
         kill := some 0.026, dt := some 2.0, threshold := some 0.2,
         contrast := some 5.0, gamma := some 0.2, invert := some false },
     metrics := some
       { activity := some 0.0, entropy := some 0.21, stdU := some 0.272,
         stdV := some 0.044 } }]

/-! ### Feature order (source: `FEATURES`, lines 203-215) -/

/-- Embedding of the `FEATURES` tuple: the fixed feature-name order. -/
def FEATURES : List String :=
  ["activity", "entropy", "stdU", "stdV", "feed", "kill", "threshold",
   "dt", "contrast", "gamma", "invert"]

/-! ### Dataset merge (source: `build_dataset`, lines 218-222) -/

/-- Whether the ordered dictionary `d` already stores key `i`. -/
def hasId (d : List Record) (i : String) : Bool :=
  d.any (fun r => r.id == i)

/-- Ordered-dictionary assignment `combined[entry['id']] = entry`: when the
key is present the stored record is replaced in place and the key keeps its
original position; otherwise the pair is appended at the end.  This is the
insertion-order semantics of the dictionaries the source uses. -/
def dictInsert (d : List Record) (e : Record) : List Record :=
  if hasId d e.id then d.map (fun r => if r.id == e.id then e else r)
  else d ++ [e]

/-- Embedding of `build_dataset`: build the ordered dictionary
`{entry['id']: entry for entry in MANUAL_SEEDS}`, assign every external
entry into it by id, and return the stored records in insertion order. -/
def build_dataset (entries : List Record) : List Record :=
  entries.foldl dictInsert (MANUAL_SEEDS.foldl dictInsert [])

/-- Spec-side helper: the last record in `es` whose id is `i`, if any —
the content an ordered dictionary stores for key `i` after assigning all
of `es` in order. -/
def lastMatch (es : List Record) (i : String) : Option Record :=
  es.foldl (fun a e => if e.id == i then some e else a) none

/-- Spec-side helper: keep only the first record for each id, preserving
order — the key order an ordered dictionary has after assigning a list
of records in order. -/
def dedupByIdKeepFirst : List Record → List Record
  | [] => []
  | e :: rest =>
      e :: dedupByIdKeepFirst (rest.filter (fun x => !(x.id == e.id)))
termination_by l => l.length
decreasing_by
  simp only [List.length_cons]
  exact Nat.lt_succ_of_le (List.length_filter_le _ _)

/-- Embedding of `extract_features`: `metrics = entry.get('metrics', {})`,
`params = entry.get('params', {})`, then the 11-element feature list with
per-field defaults; `invert` is converted by truthiness
(`1.0 if params.get('invert') else 0.0`). -/
def extract_features (entry : Record) : List ℝ :=
  let metrics := entry.metrics.getD emptyMetrics
  let params := entry.params.getD emptyParams
  [metrics.activity.getD 0.0,
   metrics.entropy.getD 0.0,
   metrics.stdU.getD 0.0,
   metrics.stdV.getD 0.0,
   params.feed.getD 0.0,
   params.kill.getD 0.0,
   params.threshold.getD 0.0,
   params.dt.getD 1.0,
   params.contrast.getD 1.0,
   params.gamma.getD 1.0,
   if params.invert.getD false then 1.0 else 0.0]

/-! ### Logistic function (source: `logistic`, lines 244-249) -/

/-- Embedding of `logistic` from the source: two-branch numerically stable
sigmoid.  `if z >= 0: return 1/(1+exp(-z))` else `return exp(z)/(1+exp(z))`. -/
noncomputable def logistic (z : ℝ) : ℝ :=
  if 0 ≤ z then
    1 / (1 + Real.exp (-z))
  else
    Real.exp z / (1 + Real.exp z)

/-- The naive sigmoid formula the spec says the two-branch form is
equivalent to: `1 / (1 + e^-z)`. -/
noncomputable def logisticNaive (z : ℝ) : ℝ :=
  1 / (1 + Real.exp (-z))

/-! ### Gradient-descent trainer (source: `train_logistic_regression`,
lines 252-273) -/

/-- The returned artifact `{"weights": weights, "bias": bias}`. -/
structure TrainResult where
  weights : List ℝ
  bias : ℝ

/-- The mutable locals of the training loop.  `X` and `y` are carried in
the state to record that the loop only reads them. -/
structure TrainState where
  X : List (List ℝ)
  y : List ℝ
  weights : List ℝ
  bias : ℝ
  lr : ℝ

/-- Dot product `sum(w * xij for w, xij in zip(weights, xi))`. -/
noncomputable def dotList (w x : List ℝ) : ℝ :=
  (List.zipWith (fun a b => a * b) w x).sum

/-- The per-example error `error = logistic(z) - yi` with
`z = dot(weights, xi) + bias`. -/
noncomputable def errTerm (w : List ℝ) (b : ℝ) (xy : List ℝ × ℝ) : ℝ :=
  logistic (dotList w xy.1 + b) - xy.2

/-- One step of the per-example gradient accumulation: `grad_b += error`
and `grad_w[j] += error * xi[j]` for every feature `j`. -/
noncomputable def gradStep (w : List ℝ) (b : ℝ) (g : ℝ × List ℝ)
    (xy : List ℝ × ℝ) : ℝ × List ℝ :=
  let error := errTerm w b xy
  (g.1 + error, List.zipWith (fun gw xij => gw + error * xij) g.2 xy.1)

/-- One epoch of the training loop: reset the gradient accumulators, fold
the per-example gradient over `zip(X, y)`, apply the batch-averaged
update to `bias` and to every weight, then apply the step decay
`lr *= 0.9` when `epoch % 1000 == 0 and epoch > 0`. -/
noncomputable def epochStep (n_samples n_features : ℕ)
    (s : TrainState) (epoch : ℕ) : TrainState :=
  let grads := (s.X.zip s.y).foldl (gradStep s.weights s.bias)
    (0.0, List.replicate n_features 0.0)
  let bias := s.bias - s.lr * (grads.1 / n_samples)
  let weights := List.zipWith (fun w gw => w - s.lr * (gw / n_samples)) s.weights grads.2
  let lr := if epoch % 1000 = 0 ∧ 0 < epoch then s.lr * 0.9 else s.lr
  { s with weights := weights, bias := bias, lr := lr }

/-- The full training loop: `n_samples = len(X)`, `n_features = len(X[0])`,
weights and bias initialized to zero, then `epochs` epochs. -/
noncomputable def trainLoop (X : List (List ℝ)) (y : List ℝ)
    (epochs : ℕ) (lr : ℝ) : TrainState :=
  (List.range epochs).foldl (epochStep X.length (X.headD []).length)
    { X := X, y := y, weights := List.replicate (X.headD []).length 0.0,
      bias := 0.0, lr := lr }

/-- Embedding of `train_logistic_regression`: run the loop and return the
final weights and bias. -/
noncomputable def train_logistic_regression (X : List (List ℝ)) (y : List ℝ)
    (epochs : ℕ) (lr : ℝ) : TrainResult :=
  let final := trainLoop X y epochs lr
  { weights := final.weights, bias := final.bias }

/-- The default epoch count of the training-loop signature. -/
def defaultEpochs : ℕ := 5000

/-- The default learning rate of the training-loop signature. -/
noncomputable def defaultLr : ℝ := 0.05

/-- `train_logistic_regression` called with its default configuration. -/
noncomputable def trainDefault (X : List (List ℝ)) (y : List ℝ) : TrainResult :=
  train_logistic_regression X y defaultEpochs defaultLr

/-! ### Spec-side transcription of the trainer (claim C1) -/

/-- Spec-side error term of example `i`:
`error_i = logistic(dot(weights, X[i]) + bias) - y_i`, with the dot
product written as an index-wise sum over the `F` features. -/
noncomputable def specError (X : List (List ℝ)) (y : List ℝ)
    (w : List ℝ) (b : ℝ) (F : ℕ) (i : ℕ) : ℝ :=
  logistic ((∑ j ∈ Finset.range F, w.getD j 0 * (X.getD i []).getD j 0) + b)
    - y.getD i 0

/-- Spec-side epoch, transcribed from the claim text: full-batch gradient
sums over all `N` examples, batch-averaged updates of bias and of each
weight, then multiplication of the learning rate by `0.9` after each
epoch whose index is a nonzero multiple of `1000`. -/
noncomputable def specEpochStep (X : List (List ℝ)) (y : List ℝ) (F : ℕ)
    (s : List ℝ × ℝ × ℝ) (epoch : ℕ) : List ℝ × ℝ × ℝ :=
  let w := s.1
  let b := s.2.1
  let lr := s.2.2
  let N : ℝ := (X.length : ℝ)
  let gradB := ∑ i ∈ Finset.range X.length, specError X y w b F i
  let gradW := fun j =>
    ∑ i ∈ Finset.range X.length, specError X y w b F i * (X.getD i []).getD j 0
  ((List.range F).map (fun j => w.getD j 0 - lr * (gradW j / N)),
   b - lr * (gradB / N),
   if epoch % 1000 = 0 ∧ 0 < epoch then lr * 0.9 else lr)

/-- Spec-side trainer: start from all-zero weights and zero bias, run
every epoch from `0` to `epochs - 1`, and return the final weights and
bias. -/
noncomputable def specTrain (X : List (List ℝ)) (y : List ℝ) (F : ℕ)
    (epochs : ℕ) (lr : ℝ) : List ℝ × ℝ :=
  let final := (List.range epochs).foldl (specEpochStep X y F)
    (List.replicate F 0.0, 0.0, lr)
  (final.1, final.2.1)

/-! ### Standardizer (source: `main`, lines 300-314) -/

/-- Column `j` of the feature matrix: `values = [row[j] for row in X]`. -/
def colVals (X : List (List ℝ)) (j : ℕ) : List ℝ :=
  X.map (fun row => row.getD j 0)

/-- Column mean `mean = sum(values) / n_samples`. -/
noncomputable def colMean (X : List (List ℝ)) (n_samples : ℕ) (j : ℕ) : ℝ :=
  (colVals X j).sum / n_samples

/-- Bessel-corrected sample variance
`variance = sum((v - mean) ** 2 for v in values) / max(1, n_samples - 1)`. -/
noncomputable def colVar (X : List (List ℝ)) (n_samples : ℕ) (j : ℕ) : ℝ :=
  ((colVals X j).map (fun v => (v - colMean X n_samples j) ^ 2)).sum
    / (max 1 (n_samples - 1) : ℕ)

/-- `std = math.sqrt(variance) if variance > 0 else 1.0`. -/
noncomputable def colStd (X : List (List ℝ)) (n_samples : ℕ) (j : ℕ) : ℝ :=
  if 0 < colVar X n_samples j then Real.sqrt (colVar X n_samples j) else 1

/-- In-place rewrite of column `j`:
`for i in range(n_samples): X[i][j] = (X[i][j] - mean) / std`. -/
noncomputable def writeCol (X : List (List ℝ)) (j : ℕ) (mean std : ℝ) :
    List (List ℝ) :=
  X.map (fun row => row.set j ((row.getD j 0 - mean) / std))

/-- Loop state of the standardization block: the matrix being mutated in
place and the preallocated `means` and `stds` arrays. -/
structure StdState where
  X : List (List ℝ)
  means : List ℝ
  stds : List ℝ

/-- Body of `for j in range(n_features)`: read the column statistics from
the current matrix (the column has not been written yet when it is read),
store `means[j]` and `stds[j]`, and rewrite the column in place. -/
noncomputable def stdStep (n_samples : ℕ) (s : StdState) (j : ℕ) : StdState :=
  let mean := colMean s.X n_samples j
  let std := colStd s.X n_samples j
  { X := writeCol s.X j mean std,
    means := s.means.set j mean,
    stds := s.stds.set j std }

/-- The first `k` iterations of the standardization loop on matrix `X0`
with `F` preallocated statistics slots. -/
noncomputable def stdPartial (X0 : List (List ℝ)) (F k : ℕ) : StdState :=
  (List.range k).foldl (stdStep X0.length)
    { X := X0, means := List.replicate F 0.0, stds := List.replicate F 0.0 }

/-- Embedding of the standardization block of `main`:
`n_features = len(X[0])`, `means = [0.0] * n_features`,
`stds = [0.0] * n_features`, then the per-column loop over
`range(n_features)`. -/
noncomputable def standardize (X : List (List ℝ)) : StdState :=
  stdPartial X (X.headD []).length (X.headD []).length

/-- Mean of a list of values, used to state the standardization
postcondition. -/
noncomputable def listMean (c : List ℝ) : ℝ :=
  c.sum / c.length

/-- Bessel-corrected sample standard deviation of a list of values, used
to state the standardization postcondition. -/
noncomputable def listSampleStd (c : List ℝ) : ℝ :=
  Real.sqrt (((c.map (fun v => (v - listMean c) ^ 2)).sum)
    / (max 1 (c.length - 1) : ℕ))

/-! ### Model assembly (source: `main`, lines 276-332, I/O omitted) -/

/-- The serialized model artifact (the `trainedAt` provenance tag is I/O
glue and not modelled). -/
structure Model where
  features : List String
  weights : List ℝ
  bias : ℝ
  means : List ℝ
  stds : List ℝ

/-- The label filter of `main`: keep a record when
`label in {'special', 'normal'}`. -/
def validLabel (r : Record) : Bool :=
  r.label == some "special" || r.label == some "normal"

/-- Embedding of the core of `main` after the feedback file has been
read: merge, label filter, feature extraction (`X`) and label encoding
(`y`), the fatal `SystemExit('No valid data to train on')` on an empty
`X`, standardization, and training with `epochs=6000, lr=0.08`. -/
noncomputable def mainCore (entries : List Record) : Except String Model :=
  let dataset := build_dataset entries
  let X := (dataset.filter validLabel).map extract_features
  let y := (dataset.filter validLabel).map
    (fun r => if r.label == some "special" then (1:ℝ) else 0)
  if X.isEmpty then Except.error "No valid data to train on"
  else
    let std := standardize X
    let result := train_logistic_regression std.X y 6000 0.08
    Except.ok
      { features := FEATURES, weights := result.weights,
        bias := result.bias, means := std.means, stds := std.stds }

/-! ### Concrete inputs used to instantiate proved claims -/

/-- External feedback that overrides every manual seed with an unlabeled
record, leaving no trainable data. -/
def invalidatingEntries : List Record :=
  ["manual-1", "manual-2", "manual-3", "manual-4", "manual-5", "manual-6",
   "manual-7", "manual-8", "manual-9"].map
    (fun i => { id := i, label := none, params := none, metrics := none })

/-! ### Lemmas -/

lemma map_id_dictInsert (d : List Record) (e : Record) :
    (dictInsert d e).map Record.id =
      if hasId d e.id then d.map Record.id else d.map Record.id ++ [e.id] := by
  unfold dictInsert
  by_cases h : hasId d e.id
  · rw [if_pos h, if_pos h, List.map_map]
    apply List.map_congr_left
    intro r _
    simp only [Function.comp]
    by_cases hr : r.id == e.id
    · rw [if_pos hr]
      exact (eq_of_beq hr).symm
    · rw [if_neg hr]
  · rw [if_neg h, if_neg h, List.map_append, List.map_cons, List.map_nil]

lemma nodup_map_id_dictInsert {d : List Record} (e : Record)
    (h : (d.map Record.id).Nodup) : ((dictInsert d e).map Record.id).Nodup := by
  rw [map_id_dictInsert]
  by_cases hc : hasId d e.id
  · rwa [if_pos hc]
  · rw [if_neg hc]
    rw [List.nodup_append]
    refine ⟨h, List.nodup_singleton _, ?_⟩
    intro a ha hb
    rw [List.mem_singleton] at hb
    subst hb
    rw [List.mem_map] at ha
    obtain ⟨r, hr, hre⟩ := ha
    have : hasId d e.id := by
      unfold hasId
      rw [List.any_eq_true]
      exact ⟨r, hr, by rw [hre, beq_self_eq_true]⟩
    exact hc this

lemma nodup_map_id_foldl (es : List Record) :
    ∀ d : List Record, (d.map Record.id).Nodup →
      ((es.foldl dictInsert d).map Record.id).Nodup := by
  induction es with
  | nil => intro d h; exact h
  | cons e rest ih =>
      intro d h
      exact ih (dictInsert d e) (nodup_map_id_dictInsert e h)

lemma hasId_eq_keys (d : List Record) (i : String) :
    hasId d i = (d.map Record.id).any (fun s => s == i) := by
  unfold hasId
  induction d with
  | nil => rfl
  | cons a t ih => simp only [List.any_cons, List.map_cons, ih]

lemma hasId_dictInsert (d : List Record) (e : Record) (i : String) :
    hasId (dictInsert d e) i =
      if hasId d e.id then hasId d i else (hasId d i || (e.id == i)) := by
  rw [hasId_eq_keys, map_id_dictInsert]
  by_cases hc : hasId d e.id
  · rw [if_pos hc, if_pos hc, ← hasId_eq_keys]
  · rw [if_neg hc, if_neg hc, List.any_append, ← hasId_eq_keys]
    simp

/-- Characterization of folding ordered-dictionary assignments over a list
of entries with pairwise distinct ids: records already stored are
overridden in place by the matching entry, and entries with fresh keys are
appended in input order. -/
lemma foldl_dictInsert_char (es : List Record) :
    ∀ d : List Record, (es.map Record.id).Nodup →
    es.foldl dictInsert d =
      d.map (fun r => (es.find? (fun x => x.id == r.id)).getD r)
        ++ es.filter (fun e => !(hasId d e.id)) := by
  induction es with
  | nil =>
      intro d _
      simp
  | cons e rest ih =>
      intro d hnd
      rw [List.map_cons, List.nodup_cons] at hnd
      obtain ⟨hein, hrest⟩ := hnd
      have hfind_rest_none : rest.find? (fun x => x.id == e.id) = none := by
        rw [List.find?_eq_none]
        intro x hx hbeq
        exact hein (List.mem_map.mpr ⟨x, hx, eq_of_beq hbeq⟩)
      rw [List.foldl_cons, ih (dictInsert d e) hrest]
      by_cases hc : hasId d e.id
      · -- the new entry replaces a stored record in place
        have hfun : ∀ i, hasId (dictInsert d e) i = hasId d i := by
          intro i
          rw [hasId_dictInsert, if_pos hc]
        have hfilter : (e :: rest).filter (fun x => !(hasId d x.id)) =
            rest.filter (fun x => !(hasId d x.id)) := by
          rw [List.filter_cons_of_neg]
          simp [hc]
        rw [hfilter]
        congr 1
        · unfold dictInsert
          rw [if_pos hc, List.map_map]
          apply List.map_congr_left
          intro r _
          simp only [Function.comp]
          by_cases hr : r.id == e.id
          · rw [if_pos hr, hfind_rest_none, List.find?_cons_of_pos, Option.getD_some,
              Option.getD_none]
            rw [eq_of_beq hr, beq_self_eq_true]
          · rw [if_neg hr, List.find?_cons_of_neg]
            intro hcontra
            exact hr (by rw [eq_of_beq hcontra, beq_self_eq_true])
        · apply List.filter_congr
          intro x _
          rw [hfun]
      · -- the new entry is appended with a fresh key
        have hnotin : ∀ r ∈ d, (e.id == r.id) = false := by
          intro r hr
          by_contra hcon
          rw [Bool.not_eq_false] at hcon
          apply hc
          unfold hasId
          rw [List.any_eq_true]
          exact ⟨r, hr, by rw [← eq_of_beq hcon, beq_self_eq_true]⟩
        have hmap : ∀ r ∈ d,
            ((rest.find? (fun x => x.id == r.id)).getD r) =
              (((e :: rest).find? (fun x => x.id == r.id)).getD r) := by
          intro r hr
          rw [List.find?_cons_of_neg]
          simp [hnotin r hr]
        unfold dictInsert
        rw [if_neg hc, List.map_append, List.map_cons, List.map_nil,
          hfind_rest_none]
        have hfresh : ∀ x ∈ rest, hasId (d ++ [e]) x.id = hasId d x.id := by
          intro x hx
          have : hasId (dictInsert d e) x.id = (hasId d x.id || (e.id == x.id)) := by
            rw [hasId_dictInsert, if_neg hc]
          rw [dictInsert, if_neg hc] at this
          rw [this]
          have : (e.id == x.id) = false := by
            by_contra hcon
            rw [Bool.not_eq_false] at hcon
            exact hein (List.mem_map.mpr ⟨x, hx, (eq_of_beq hcon).symm⟩)
          rw [this, Bool.or_false]
        have hfilterL : rest.filter (fun x => !(hasId (d ++ [e]) x.id)) =
            rest.filter (fun x => !(hasId d x.id)) := by
          apply List.filter_congr
          intro x hx
          rw [hfresh x hx]
        have hfilterR : (e :: rest).filter (fun x => !(hasId d x.id)) =
            e :: rest.filter (fun x => !(hasId d x.id)) := by
          rw [List.filter_cons_of_pos]
          simp [hc]
        rw [hfilterL, hfilterR, List.map_congr_left hmap]
        simp

lemma lastMatch_go (i : String) : ∀ (es : List Record)
    (acc : Option Record),
    es.foldl (fun a e => if e.id == i then some e else a) acc =
      (es.foldl (fun a e => if e.id == i then some e else a) none).elim
        acc some := by
  intro es
  induction es with
  | nil => intro acc; rfl
  | cons e rest ih =>
      intro acc
      rw [List.foldl_cons, List.foldl_cons,
        ih (if e.id == i then some e else acc),
        ih (if e.id == i then some e else none)]
      cases hr : rest.foldl (fun a e => if e.id == i then some e else a)
          none with
      | none =>
          simp only [Option.elim]
          by_cases he : e.id == i
          · rw [if_pos he, if_pos he]
          · rw [if_neg he, if_neg he]
      | some x => rfl

lemma lastMatch_cons (e : Record) (rest : List Record) (i : String) :
    lastMatch (e :: rest) i =
      (lastMatch rest i).elim (if e.id == i then some e else none) some := by
  unfold lastMatch
  rw [List.foldl_cons]
  exact lastMatch_go i rest _

lemma lastMatch_filter (p : Record → Bool) (i : String) :
    ∀ es : List Record, (∀ x ∈ es, x.id = i → p x = true) →
      lastMatch (es.filter p) i = lastMatch es i := by
  intro es
  induction es with
  | nil => intro _; rfl
  | cons e rest ih =>
      intro hp
      have hrest := fun x hx => hp x (List.mem_cons_of_mem _ hx)
      by_cases pe : p e = true
      · rw [List.filter_cons_of_pos pe, lastMatch_cons, lastMatch_cons,
          ih hrest]
      · have hne : (e.id == i) = false := by
          by_contra hcon
          rw [Bool.not_eq_false] at hcon
          exact pe (hp e (List.mem_cons_self _ _) (eq_of_beq hcon))
        rw [List.filter_cons_of_neg pe, lastMatch_cons, ih hrest, hne]
        cases lastMatch rest i with
        | none => rfl
        | some x => rfl

lemma hasId_append_one (d : List Record) (e : Record) (i : String) :
    hasId (d ++ [e]) i = (hasId d i || (e.id == i)) := by
  unfold hasId
  rw [List.any_append]
  simp

lemma hasId_singleton (e : Record) (i : String) :
    hasId [e] i = (e.id == i) := by
  unfold hasId
  simp

lemma dedup_subset : ∀ (n : ℕ) (L : List Record), L.length ≤ n →
    ∀ x ∈ dedupByIdKeepFirst L, x ∈ L := by
  intro n
  induction n with
  | zero =>
      intro L hL x hx
      have : L = [] := List.length_eq_zero.mp (Nat.le_zero.mp hL)
      subst this
      simp [dedupByIdKeepFirst] at hx
  | succ n ih =>
      intro L hL x hx
      cases L with
      | nil => simp [dedupByIdKeepFirst] at hx
      | cons e rest =>
          rw [dedupByIdKeepFirst] at hx
          rcases List.mem_cons.mp hx with rfl | hx2
          · exact List.mem_cons_self _ _
          · have hlen : (rest.filter (fun y => !(y.id == e.id))).length ≤ n := by
              have h1 := List.length_filter_le (fun y => !(y.id == e.id)) rest
              simp only [List.length_cons] at hL
              omega
            have hmem := ih _ hlen x hx2
            exact List.mem_cons_of_mem _ (List.mem_of_mem_filter hmem)

/-- General characterization of assigning a list of entries into an
ordered dictionary: stored records are overridden in place by the last
entry carrying their key, and the remaining entries build a fresh
dictionary appended behind. -/
lemma foldl_dictInsert_lastMatch : ∀ (n : ℕ) (es : List Record),
    es.length ≤ n → ∀ d : List Record,
    es.foldl dictInsert d =
      d.map (fun r => (lastMatch es r.id).getD r) ++
      (es.filter (fun e => !(hasId d e.id))).foldl dictInsert [] := by
  intro n
  induction n with
  | zero =>
      intro es hes d
      have : es = [] := List.length_eq_zero.mp (Nat.le_zero.mp hes)
      subst this
      simp [lastMatch]
  | succ n ih =>
      intro es hes d
      cases es with
      | nil => simp [lastMatch]
      | cons e rest =>
          rw [List.foldl_cons]
          simp only [List.length_cons] at hes
          have hrest : rest.length ≤ n := by omega
          by_cases hc : hasId d e.id
          · -- the head entry overrides a stored record in place
            rw [ih rest hrest (dictInsert d e)]
            have hkeys : ∀ i, hasId (dictInsert d e) i = hasId d i :=
              fun i => by rw [hasId_dictInsert, if_pos hc]
            have hfR : (e :: rest).filter (fun x => !(hasId d x.id)) =
                rest.filter (fun x => !(hasId d x.id)) := by
              rw [List.filter_cons_of_neg]
              simp [hc]
            have hfL : rest.filter
                (fun x => !(hasId (dictInsert d e) x.id)) =
                rest.filter (fun x => !(hasId d x.id)) :=
              List.filter_congr (fun x _ => by rw [hkeys])
            rw [hfL, hfR]
            congr 1
            unfold dictInsert
            rw [if_pos hc, List.map_map]
            apply List.map_congr_left
            intro r _
            simp only [Function.comp]
            by_cases hr : r.id == e.id
            · rw [if_pos hr, eq_of_beq hr, lastMatch_cons]
              cases lastMatch rest e.id with
              | none => simp
              | some x => rfl
            · have he : (e.id == r.id) = false := by
                by_contra hcon
                rw [Bool.not_eq_false] at hcon
                exact hr (by rw [eq_of_beq hcon, beq_self_eq_true])
              rw [if_neg hr, lastMatch_cons, he]
              cases lastMatch rest r.id with
              | none => rfl
              | some x => rfl
          · -- the head entry is appended with a fresh key
            rw [ih rest hrest (dictInsert d e)]
            have hde : dictInsert d e = d ++ [e] := by
              unfold dictInsert
              rw [if_neg hc]
            rw [hde, List.map_append, List.map_cons, List.map_nil]
            have hmap : d.map (fun r => (lastMatch rest r.id).getD r) =
                d.map (fun r => (lastMatch (e :: rest) r.id).getD r) := by
              apply List.map_congr_left
              intro r hrd
              have he : (e.id == r.id) = false := by
                by_contra hcon
                rw [Bool.not_eq_false] at hcon
                apply hc
                unfold hasId
                rw [List.any_eq_true]
                exact ⟨r, hrd, by rw [← eq_of_beq hcon, beq_self_eq_true]⟩
              rw [lastMatch_cons, he]
              cases lastMatch rest r.id with
              | none => rfl
              | some x => rfl
            rw [hmap]
            have hfR : (e :: rest).filter (fun x => !(hasId d x.id)) =
                e :: rest.filter (fun x => !(hasId d x.id)) := by
              rw [List.filter_cons_of_pos]
              simp [hc]
            rw [hfR, List.foldl_cons,
              show dictInsert [] e = [e] from rfl,
              ih (rest.filter (fun x => !(hasId d x.id)))
                (le_trans (List.length_filter_le _ _) hrest) [e],
              List.map_cons, List.map_nil]
            have hsurv : ∀ x ∈ rest, x.id = e.id →
                (!(hasId d x.id)) = true := by
              intro x _ hxe
              rw [hxe]
              simp [hc]
            rw [lastMatch_filter (fun x => !(hasId d x.id)) e.id rest hsurv]
            have hfilters : (rest.filter (fun x => !(hasId d x.id))).filter
                (fun x => !(hasId [e] x.id)) =
                rest.filter (fun x => !(hasId (d ++ [e]) x.id)) := by
              rw [List.filter_filter]
              apply List.filter_congr
              intro x _
              rw [hasId_append_one, hasId_singleton, Bool.not_or]
              cases hasId d x.id <;> cases e.id == x.id <;> rfl
            rw [hfilters, List.append_assoc]

/-- Building an ordered dictionary from scratch keeps the first position
of every key and the last assigned content. -/
lemma foldl_nil_eq_dedup : ∀ (n : ℕ) (L : List Record), L.length ≤ n →
    L.foldl dictInsert [] =
      (dedupByIdKeepFirst L).map (fun e => (lastMatch L e.id).getD e) := by
  intro n
  induction n with
  | zero =>
      intro L hL
      have : L = [] := List.length_eq_zero.mp (Nat.le_zero.mp hL)
      subst this
      simp [dedupByIdKeepFirst]
  | succ n ih =>
      intro L hL
      cases L with
      | nil => simp [dedupByIdKeepFirst]
      | cons e rest =>
          simp only [List.length_cons] at hL
          rw [List.foldl_cons, show dictInsert [] e = [e] from rfl,
            foldl_dictInsert_lastMatch rest.length rest le_rfl [e],
            List.map_cons, List.map_nil]
          have hfe : rest.filter (fun x => !(hasId [e] x.id)) =
              rest.filter (fun x => !(x.id == e.id)) := by
            apply List.filter_congr
            intro x _
            rw [hasId_singleton]
            by_cases hxe : x.id = e.id
            · rw [hxe]
            · have h1 : (e.id == x.id) = false := by
                by_contra hcon
                rw [Bool.not_eq_false] at hcon
                exact hxe (eq_of_beq hcon).symm
              have h2 : (x.id == e.id) = false := by
                by_contra hcon
                rw [Bool.not_eq_false] at hcon
                exact hxe (eq_of_beq hcon)
              rw [h1, h2]
          rw [hfe,
            ih (rest.filter (fun x => !(x.id == e.id)))
              (le_trans (List.length_filter_le _ _) (by omega)),
            show dedupByIdKeepFirst (e :: rest) =
              e :: dedupByIdKeepFirst
                (rest.filter (fun x => !(x.id == e.id))) from
              by rw [dedupByIdKeepFirst],
            List.map_cons, List.singleton_append]
          congr 1
          · rw [lastMatch_cons]
            cases lastMatch rest e.id with
            | none => simp
            | some x => rfl
          · apply List.map_congr_left
            intro x hx
            have hxmem : x ∈ rest.filter (fun y => !(y.id == e.id)) :=
              dedup_subset _ _ le_rfl x hx
            have hxne : (x.id == e.id) = false := by
              have h := (List.mem_filter.mp hxmem).2
              rw [Bool.not_eq_true'] at h
              exact h
            have hxid : x.id ≠ e.id := by
              intro hcon
              rw [hcon, beq_self_eq_true] at hxne
              cases hxne
            rw [lastMatch_filter (fun y => !(y.id == e.id)) x.id rest
              (fun y _ hy => by
                show (!(y.id == e.id)) = true
                rw [hy, hxne]
                rfl)]
            have he : (e.id == x.id) = false := by
              by_contra hcon
              rw [Bool.not_eq_false] at hcon
              exact hxid (eq_of_beq hcon).symm
            rw [lastMatch_cons, he]
            cases lastMatch rest x.id with
            | none => rfl
            | some y => rfl

lemma manual_ids_nodup : (MANUAL_SEEDS.map Record.id).Nodup := by decide

lemma manual_foldl_eq : MANUAL_SEEDS.foldl dictInsert [] = MANUAL_SEEDS := by
  rw [foldl_dictInsert_char MANUAL_SEEDS [] manual_ids_nodup]
  simp [hasId]

lemma extract_features_length (entry : Record) :
    (extract_features entry).length = 11 := rfl

lemma logistic_eq_naive (z : ℝ) : logistic z = logisticNaive z := by
  unfold logistic logisticNaive
  by_cases h : 0 ≤ z
  · rw [if_pos h]
  · rw [if_neg h]
    have h1 : (0:ℝ) < 1 + Real.exp z := by positivity
    have h2 : (0:ℝ) < 1 + Real.exp (-z) := by positivity
    rw [div_eq_div_iff h1.ne' h2.ne']
    have : Real.exp z * Real.exp (-z) = 1 := by
      rw [← Real.exp_add]; simp
    ring_nf
    nlinarith [this]

lemma one_add_exp_pos (z : ℝ) : (0:ℝ) < 1 + Real.exp z := by positivity

lemma logistic_pos (z : ℝ) : 0 < logistic z := by
  rw [logistic_eq_naive, logisticNaive]
  positivity

lemma logistic_lt_one (z : ℝ) : logistic z < 1 := by
  rw [logistic_eq_naive, logisticNaive]
  rw [div_lt_one (one_add_exp_pos (-z))]
  have := Real.exp_pos (-z)
  linarith

lemma logistic_strictMono : StrictMono logistic := by
  intro a b hab
  rw [logistic_eq_naive, logistic_eq_naive, logisticNaive, logisticNaive]
  have ha : (0:ℝ) < 1 + Real.exp (-a) := one_add_exp_pos (-a)
  have hb : (0:ℝ) < 1 + Real.exp (-b) := one_add_exp_pos (-b)
  rw [div_lt_div_iff₀ ha hb]
  have : Real.exp (-b) < Real.exp (-a) := Real.exp_lt_exp.2 (by linarith)
  linarith

lemma logistic_zero : logistic 0 = 0.5 := by
  unfold logistic
  rw [if_pos le_rfl]
  norm_num

/-- Symmetry of the sigmoid, used for the two-point training analysis. -/
lemma logistic_neg (z : ℝ) : logistic (-z) = 1 - logistic z := by
  rw [logistic_eq_naive, logistic_eq_naive, logisticNaive, logisticNaive]
  have ha : (0:ℝ) < 1 + Real.exp (-z) := one_add_exp_pos (-z)
  have hb : (0:ℝ) < 1 + Real.exp z := one_add_exp_pos z
  have hmul : Real.exp z * Real.exp (-z) = 1 := by rw [← Real.exp_add]; simp
  field_simp
  nlinarith [hmul]

lemma logistic_gt_half_of_pos {z : ℝ} (hz : 0 < z) : 0.5 < logistic z := by
  have := logistic_strictMono hz
  rwa [logistic_zero] at this

lemma logistic_lt_half_of_neg {z : ℝ} (hz : z < 0) : logistic z < 0.5 := by
  have := logistic_strictMono hz
  rwa [logistic_zero] at this

/-! ### Bridging lemmas: loop-framed trainer versus index-wise sums -/

lemma map_sum_eq_range_sum {α : Type} (f : α → ℝ) (l : List α) (d : α) :
    (l.map f).sum = ∑ i ∈ Finset.range l.length, f (l.getD i d) := by
  induction l with
  | nil => simp
  | cons a t ih =>
      rw [List.map_cons, List.sum_cons, List.length_cons, Finset.sum_range_succ']
      simp only [List.getD_cons_succ, List.getD_cons_zero]
      rw [ih]
      ring

lemma dotList_eq_sum (w : List ℝ) :
    ∀ x : List ℝ, x.length = w.length →
      dotList w x = ∑ j ∈ Finset.range w.length, w.getD j 0 * x.getD j 0 := by
  induction w with
  | nil =>
      intro x _
      simp [dotList]
  | cons a w ih =>
      intro x hx
      cases x with
      | nil => simp at hx
      | cons c x =>
          simp only [List.length_cons] at hx ⊢
          have hx2 : x.length = w.length := by omega
          unfold dotList
          rw [List.zipWith_cons_cons, List.sum_cons, Finset.sum_range_succ']
          simp only [List.getD_cons_succ, List.getD_cons_zero]
          rw [← dotList, ih x hx2]
          ring

lemma zipWith_getD (f : ℝ → ℝ → ℝ) (a b : List ℝ) (j : ℕ)
    (hja : j < a.length) (hjb : j < b.length) :
    (List.zipWith f a b).getD j 0 = f (a.getD j 0) (b.getD j 0) := by
  have hz : j < (List.zipWith f a b).length := by
    rw [List.length_zipWith]; omega
  rw [List.getD_eq_getElem _ _ hz, List.getD_eq_getElem _ _ hja,
    List.getD_eq_getElem _ _ hjb, List.getElem_zipWith]

lemma gradStep_fst (w : List ℝ) (b : ℝ) (g : ℝ × List ℝ) (xy : List ℝ × ℝ) :
    (gradStep w b g xy).1 = g.1 + errTerm w b xy := rfl

lemma gradStep_snd (w : List ℝ) (b : ℝ) (g : ℝ × List ℝ) (xy : List ℝ × ℝ) :
    (gradStep w b g xy).2 =
      List.zipWith (fun gw xij => gw + errTerm w b xy * xij) g.2 xy.1 := rfl

lemma gradFold_fst (w : List ℝ) (b : ℝ) (ps : List (List ℝ × ℝ)) :
    ∀ g : ℝ × List ℝ,
      (ps.foldl (gradStep w b) g).1 = g.1 + (ps.map (errTerm w b)).sum := by
  induction ps with
  | nil => intro g; simp
  | cons p t ih =>
      intro g
      rw [List.foldl_cons, ih, gradStep_fst, List.map_cons, List.sum_cons]
      ring

lemma gradFold_snd_length (w : List ℝ) (b : ℝ) (F : ℕ)
    (ps : List (List ℝ × ℝ)) (hps : ∀ p ∈ ps, p.1.length = F) :
    ∀ g : ℝ × List ℝ, g.2.length = F →
      (ps.foldl (gradStep w b) g).2.length = F := by
  induction ps with
  | nil => intro g hg; exact hg
  | cons p t ih =>
      intro g hg
      rw [List.foldl_cons]
      refine ih (fun q hq => hps q (List.mem_cons_of_mem _ hq)) _ ?_
      rw [gradStep_snd, List.length_zipWith, hg, hps p (List.mem_cons_self _ _)]
      omega

lemma gradFold_snd_getD (w : List ℝ) (b : ℝ) (F : ℕ)
    (ps : List (List ℝ × ℝ)) (hps : ∀ p ∈ ps, p.1.length = F) :
    ∀ g : ℝ × List ℝ, g.2.length = F → ∀ j, j < F →
      (ps.foldl (gradStep w b) g).2.getD j 0 =
        g.2.getD j 0 + (ps.map (fun p => errTerm w b p * p.1.getD j 0)).sum := by
  induction ps with
  | nil => intro g hg j hj; simp
  | cons p t ih =>
      intro g hg j hj
      have hp : p.1.length = F := hps p (List.mem_cons_self _ _)
      have hg2 : (gradStep w b g p).2.length = F := by
        rw [gradStep_snd, List.length_zipWith, hg, hp]
        omega
      rw [List.foldl_cons,
        ih (fun q hq => hps q (List.mem_cons_of_mem _ hq)) _ hg2 j hj,
        gradStep_snd, zipWith_getD _ _ _ j (by omega) (by omega),
        List.map_cons, List.sum_cons]
      ring

lemma errTerm_eq_specError (X : List (List ℝ)) (y : List ℝ) (F : ℕ)
    (hrows : ∀ row ∈ X, row.length = F)
    (w : List ℝ) (b : ℝ) (hw : w.length = F) (i : ℕ) (hi : i < X.length) :
    errTerm w b (X.getD i [], y.getD i 0) = specError X y w b F i := by
  have hrow : (X.getD i []).length = F := by
    rw [List.getD_eq_getElem _ _ hi]
    exact hrows _ (List.getElem_mem hi)
  unfold errTerm specError
  simp only
  rw [dotList_eq_sum w _ (by rw [hrow, hw]), hw]

lemma zip_getD (X : List (List ℝ)) (y : List ℝ) (hy : y.length = X.length)
    (i : ℕ) (hi : i < X.length) :
    (X.zip y).getD i ([], 0) = (X.getD i [], y.getD i 0) := by
  have hiz : i < (X.zip y).length := by
    rw [List.length_zip, hy, min_self]; exact hi
  have hiy : i < y.length := by rw [hy]; exact hi
  rw [List.getD_eq_getElem _ _ hiz, List.getD_eq_getElem _ _ hi,
    List.getD_eq_getElem _ _ hiy, List.getElem_zip]

lemma zip_map_sum (X : List (List ℝ)) (y : List ℝ) (hy : y.length = X.length)
    (f : List ℝ × ℝ → ℝ) :
    ((X.zip y).map f).sum =
      ∑ i ∈ Finset.range X.length, f (X.getD i [], y.getD i 0) := by
  rw [map_sum_eq_range_sum f _ ([], 0)]
  have hlen : (X.zip y).length = X.length := by
    rw [List.length_zip, hy, min_self]
  rw [hlen]
  exact Finset.sum_congr rfl (fun i hi => by
    rw [zip_getD X y hy i (Finset.mem_range.mp hi)])

lemma epochStep_eq_spec (X : List (List ℝ)) (y : List ℝ) (F : ℕ)
    (hrows : ∀ row ∈ X, row.length = F) (hy : y.length = X.length)
    (s : TrainState) (hX : s.X = X) (hY : s.y = y) (hw : s.weights.length = F)
    (epoch : ℕ) :
    (epochStep X.length F s epoch).X = X ∧
    (epochStep X.length F s epoch).y = y ∧
    (epochStep X.length F s epoch).weights.length = F ∧
    ((epochStep X.length F s epoch).weights,
      (epochStep X.length F s epoch).bias,
      (epochStep X.length F s epoch).lr) =
      specEpochStep X y F (s.weights, s.bias, s.lr) epoch := by
  have hps : ∀ p ∈ X.zip y, p.1.length = F := by
    intro p hp
    obtain ⟨p1, p2⟩ := p
    exact hrows p1 (List.of_mem_zip hp).1
  have hrepl : ((0.0:ℝ), List.replicate F (0.0:ℝ)).2.length = F :=
    List.length_replicate _ _
  have hgB : ((X.zip y).foldl (gradStep s.weights s.bias)
      (0.0, List.replicate F 0.0)).1 =
      ∑ i ∈ Finset.range X.length, specError X y s.weights s.bias F i := by
    rw [gradFold_fst, zip_map_sum X y hy]
    have h00 : (0.0:ℝ) = 0 := by norm_num
    rw [h00, zero_add]
    exact Finset.sum_congr rfl (fun i hi =>
      errTerm_eq_specError X y F hrows s.weights s.bias hw i
        (Finset.mem_range.mp hi))
  have hgWlen : ((X.zip y).foldl (gradStep s.weights s.bias)
      (0.0, List.replicate F 0.0)).2.length = F :=
    gradFold_snd_length s.weights s.bias F (X.zip y) hps _ hrepl
  have hgW : ∀ j, j < F → ((X.zip y).foldl (gradStep s.weights s.bias)
      (0.0, List.replicate F 0.0)).2.getD j 0 =
      ∑ i ∈ Finset.range X.length,
        specError X y s.weights s.bias F i * (X.getD i []).getD j 0 := by
    intro j hj
    rw [gradFold_snd_getD s.weights s.bias F (X.zip y) hps _ hrepl j hj,
      zip_map_sum X y hy]
    rw [List.getD_eq_getElem _ _ (by rw [hrepl]; exact hj),
      List.getElem_replicate]
    have h00 : (0.0:ℝ) = 0 := by norm_num
    rw [h00, zero_add]
    exact Finset.sum_congr rfl (fun i hi => by
      rw [errTerm_eq_specError X y F hrows s.weights s.bias hw i
        (Finset.mem_range.mp hi)])
  refine ⟨?_, ?_, ?_, ?_⟩
  · simp only [epochStep, hX]
  · simp only [epochStep, hY]
  · simp only [epochStep, hX, hY]
    rw [List.length_zipWith, hw, hgWlen]
    exact min_self F
  · simp only [epochStep, specEpochStep, hX, hY]
    refine Prod.ext ?_ (Prod.ext ?_ rfl)
    · -- weights component
      simp only
      apply List.ext_getElem
      · rw [List.length_zipWith, hw, hgWlen, List.length_map,
          List.length_range]
        exact min_self F
      · intro j hj1 hj2
        have hjF : j < F := by
          rw [List.length_map, List.length_range] at hj2
          exact hj2
        rw [List.getElem_zipWith, List.getElem_map, List.getElem_range]
        rw [← List.getD_eq_getElem s.weights 0 (by rw [hw]; exact hjF),
          ← List.getD_eq_getElem _ 0 (by rw [hgWlen]; exact hjF),
          hgW j hjF]
    · simp only
      rw [hgB]

lemma set_getD_ne (row : List ℝ) (j j' : ℕ) (h : j ≠ j') (v : ℝ) :
    (row.set j v).getD j' 0 = row.getD j' 0 := by
  rw [List.getD_eq_getElem?_getD, List.getD_eq_getElem?_getD,
    List.getElem?_set_ne h]

lemma set_getD_self (row : List ℝ) (j : ℕ) (h : j < row.length) (v : ℝ) :
    (row.set j v).getD j 0 = v := by
  have h2 : j < (row.set j v).length := by rw [List.length_set]; exact h
  rw [List.getD_eq_getElem _ _ h2, List.getElem_set_self]

lemma colVals_writeCol_ne (M : List (List ℝ)) (j j' : ℕ) (h : j ≠ j')
    (m s : ℝ) : colVals (writeCol M j m s) j' = colVals M j' := by
  unfold colVals writeCol
  rw [List.map_map]
  apply List.map_congr_left
  intro row _
  exact set_getD_ne row j j' h _

lemma colVals_writeCol_self (M : List (List ℝ)) (j : ℕ) (m s : ℝ)
    (h : ∀ row ∈ M, j < row.length) :
    colVals (writeCol M j m s) j =
      (colVals M j).map (fun v => (v - m) / s) := by
  unfold colVals writeCol
  rw [List.map_map, List.map_map]
  apply List.map_congr_left
  intro row hrow
  exact set_getD_self row j (h row hrow) _

lemma stdPartial_invariant (X0 : List (List ℝ)) (F : ℕ)
    (hrows : ∀ row ∈ X0, row.length = F) :
    ∀ k, k ≤ F →
      (stdPartial X0 F k).X.length = X0.length ∧
      (∀ row ∈ (stdPartial X0 F k).X, row.length = F) ∧
      (stdPartial X0 F k).means.length = F ∧
      (stdPartial X0 F k).stds.length = F ∧
      (∀ j, k ≤ j → colVals (stdPartial X0 F k).X j = colVals X0 j) ∧
      (∀ j, j < k →
        colVals (stdPartial X0 F k).X j =
          (colVals X0 j).map
            (fun v => (v - colMean X0 X0.length j) / colStd X0 X0.length j) ∧
        (stdPartial X0 F k).means.getD j 0 = colMean X0 X0.length j ∧
        (stdPartial X0 F k).stds.getD j 0 = colStd X0 X0.length j) := by
  intro k
  induction k with
  | zero =>
      intro _
      exact ⟨rfl, hrows, List.length_replicate _ _, List.length_replicate _ _,
        fun j _ => rfl, fun j hj => absurd hj (Nat.not_lt_zero j)⟩
  | succ k ih =>
      intro hk1
      have hk : k ≤ F := Nat.le_of_succ_le hk1
      have hkF : k < F := hk1
      obtain ⟨ihlen, ihrows, ihm, ihs, ihup, ihdone⟩ := ih hk
      have hstep : stdPartial X0 F (k+1) =
          stdStep X0.length (stdPartial X0 F k) k := by
        unfold stdPartial
        rw [List.range_succ, List.foldl_append, List.foldl_cons,
          List.foldl_nil]
      have hcol : colVals (stdPartial X0 F k).X k = colVals X0 k :=
        ihup k le_rfl
      have hmean : colMean (stdPartial X0 F k).X X0.length k =
          colMean X0 X0.length k := by
        unfold colMean; rw [hcol]
      have hvar : colVar (stdPartial X0 F k).X X0.length k =
          colVar X0 X0.length k := by
        unfold colVar colMean; rw [hcol]
      have hstd : colStd (stdPartial X0 F k).X X0.length k =
          colStd X0 X0.length k := by
        unfold colStd; rw [hvar]
      have hjlt : ∀ row ∈ (stdPartial X0 F k).X, k < row.length := by
        intro row hrow
        rw [ihrows row hrow]
        exact hkF
      rw [hstep]
      simp only [stdStep]
      refine ⟨?_, ?_, ?_, ?_, ?_, ?_⟩
      · rw [writeCol, List.length_map, ihlen]
      · intro row hrow
        rw [writeCol] at hrow
        obtain ⟨row0, hrow0, rfl⟩ := List.mem_map.mp hrow
        rw [List.length_set]
        exact ihrows row0 hrow0
      · rw [List.length_set]
        exact ihm
      · rw [List.length_set]
        exact ihs
      · intro j hj
        rw [colVals_writeCol_ne _ _ _ (by omega) _ _]
        exact ihup j (by omega)
      · intro j hj
        by_cases hjk : j = k
        · subst hjk
          refine ⟨?_, ?_, ?_⟩
          · rw [colVals_writeCol_self _ _ _ _ hjlt, hcol, hmean, hstd]
          · rw [set_getD_self _ _ (by rw [ihm]; exact hkF) _, hmean]
          · rw [set_getD_self _ _ (by rw [ihs]; exact hkF) _, hstd]
        · have hjk2 : j < k := by omega
          obtain ⟨d1, d2, d3⟩ := ihdone j hjk2
          refine ⟨?_, ?_, ?_⟩
          · rw [colVals_writeCol_ne _ _ _ (fun h => hjk h.symm) _ _]
            exact d1
          · rw [set_getD_ne _ _ _ (fun h => hjk h.symm) _]
            exact d2
          · rw [set_getD_ne _ _ _ (fun h => hjk h.symm) _]
            exact d3

lemma sum_map_affine (c : List ℝ) (m s : ℝ) :
    (c.map (fun v => (v - m) / s)).sum = (c.sum - c.length * m) / s := by
  induction c with
  | nil => simp
  | cons a t ih =>
      rw [List.map_cons, List.sum_cons, ih, List.sum_cons, List.length_cons]
      push_cast
      ring

lemma sq_dev_sum_nonneg (m : ℝ) (c : List ℝ) :
    0 ≤ (c.map (fun v => (v - m) ^ 2)).sum := by
  apply List.sum_nonneg
  intro x hx
  obtain ⟨v, _, rfl⟩ := List.mem_map.mp hx
  positivity

lemma sq_dev_sum_pos (m : ℝ) :
    ∀ c : List ℝ, (∃ v ∈ c, v ≠ m) →
      0 < (c.map (fun v => (v - m) ^ 2)).sum := by
  intro c
  induction c with
  | nil =>
      rintro ⟨v, hv, _⟩
      cases hv
  | cons a t ih =>
      rintro ⟨v, hv, hne⟩
      rw [List.map_cons, List.sum_cons]
      have h2 := sq_dev_sum_nonneg m t
      rcases List.mem_cons.mp hv with rfl | hmem
      · have h3 : (v - m) ^ 2 ≠ 0 := pow_ne_zero 2 (sub_ne_zero.mpr hne)
        have h4 : 0 < (v - m) ^ 2 := lt_of_le_of_ne (sq_nonneg _) (Ne.symm h3)
        linarith
      · have h5 := ih ⟨v, hmem, hne⟩
        have h6 : 0 ≤ (a - m) ^ 2 := sq_nonneg _
        linarith

lemma colMean_of_const (X : List (List ℝ)) (j : ℕ) (c : ℝ)
    (hne : X ≠ []) (hconst : ∀ v ∈ colVals X j, v = c) :
    colMean X X.length j = c := by
  have hN : (0:ℝ) < X.length := by
    have := List.length_pos.mpr hne
    exact_mod_cast this
  have hlen : (colVals X j).length = X.length := List.length_map _ _
  have hsum : (colVals X j).sum = (colVals X j).length • c :=
    List.sum_eq_card_nsmul _ _ hconst
  unfold colMean
  rw [hsum, hlen, nsmul_eq_mul]
  field_simp

lemma colVar_eq_zero_of_const (X : List (List ℝ)) (j : ℕ) (c : ℝ)
    (hne : X ≠ []) (hconst : ∀ v ∈ colVals X j, v = c) :
    colVar X X.length j = 0 := by
  unfold colVar
  have hz : ((colVals X j).map
      (fun v => (v - colMean X X.length j) ^ 2)).sum = 0 := by
    apply List.sum_eq_zero
    intro x hx
    obtain ⟨v, hv, rfl⟩ := List.mem_map.mp hx
    rw [hconst v hv, colMean_of_const X j c hne hconst]
    ring
  rw [hz, zero_div]

lemma colStd_of_const (X : List (List ℝ)) (j : ℕ) (c : ℝ)
    (hne : X ≠ []) (hconst : ∀ v ∈ colVals X j, v = c) :
    colStd X X.length j = 1 := by
  unfold colStd
  rw [colVar_eq_zero_of_const X j c hne hconst, if_neg (lt_irrefl 0)]

lemma colVar_pos_of_nonconst (X : List (List ℝ)) (j : ℕ)
    (h : ¬ ∃ c, ∀ v ∈ colVals X j, v = c) :
    0 < colVar X X.length j := by
  have hex : ∃ v ∈ colVals X j, v ≠ colMean X X.length j := by
    by_contra hcon
    push_neg at hcon
    exact h ⟨colMean X X.length j, hcon⟩
  unfold colVar
  apply div_pos (sq_dev_sum_pos _ _ hex)
  have hD : 0 < max 1 (X.length - 1) := by omega
  exact_mod_cast hD

lemma standardize_eq_partial (X : List (List ℝ)) (F : ℕ) (hne : X ≠ [])
    (hrows : ∀ row ∈ X, row.length = F) :
    standardize X = stdPartial X F F := by
  have hF : (X.headD []).length = F := by
    cases X with
    | nil => exact absurd rfl hne
    | cons r t => exact hrows r (List.mem_cons_self _ _)
  unfold standardize
  rw [hF]

lemma transformed_col_sum (X : List (List ℝ)) (j : ℕ) (hne : X ≠ []) :
    ((colVals X j).map
      (fun v => (v - colMean X X.length j) / colStd X X.length j)).sum = 0 := by
  have hN : ((X.length : ℕ) : ℝ) ≠ 0 := by
    have := List.length_pos.mpr hne
    exact_mod_cast this.ne'
  rw [sum_map_affine]
  have hclen : (colVals X j).length = X.length := List.length_map _ _
  rw [hclen]
  have hm : (X.length : ℝ) * colMean X X.length j = (colVals X j).sum := by
    unfold colMean
    field_simp
  rw [hm, sub_self, zero_div]

lemma transformed_listMean (X : List (List ℝ)) (j : ℕ) (hne : X ≠ []) :
    listMean ((colVals X j).map
      (fun v => (v - colMean X X.length j) / colStd X X.length j)) = 0 := by
  unfold listMean
  rw [transformed_col_sum X j hne, zero_div]

lemma transformed_sampleStd (X : List (List ℝ)) (j : ℕ) (hne : X ≠ [])
    (h : ¬ ∃ c, ∀ v ∈ colVals X j, v = c) :
    listSampleStd ((colVals X j).map
      (fun v => (v - colMean X X.length j) / colStd X X.length j)) = 1 := by
  have hvar : 0 < colVar X X.length j := colVar_pos_of_nonconst X j h
  have hs2 : (colStd X X.length j) ^ 2 = colVar X X.length j := by
    unfold colStd
    rw [if_pos hvar, Real.sq_sqrt hvar.le]
  have hmean0 := transformed_listMean X j hne
  unfold listSampleStd
  rw [hmean0, List.length_map, List.map_map]
  have hclen : (colVals X j).length = X.length := List.length_map _ _
  rw [hclen]
  have hpt : ∀ v ∈ colVals X j,
      ((fun w => (w - 0) ^ 2) ∘
        (fun v => (v - colMean X X.length j) / colStd X X.length j)) v =
      (v - colMean X X.length j) ^ 2 * (colVar X X.length j)⁻¹ := by
    intro v _
    simp only [Function.comp]
    rw [sub_zero, div_pow, hs2, div_eq_mul_inv]
  rw [List.map_congr_left hpt, List.sum_map_mul_right]
  have hD : ((max 1 (X.length - 1) : ℕ) : ℝ) ≠ 0 := by
    have hDpos : 0 < max 1 (X.length - 1) := by omega
    exact_mod_cast hDpos.ne'
  have hA : ((colVals X j).map
      (fun v => (v - colMean X X.length j) ^ 2)).sum =
      colVar X X.length j * ((max 1 (X.length - 1) : ℕ) : ℝ) := by
    unfold colVar
    rw [div_mul_cancel₀ _ hD]
  rw [hA]
  have hone : colVar X X.length j * ((max 1 (X.length - 1) : ℕ) : ℝ) *
      (colVar X X.length j)⁻¹ / ((max 1 (X.length - 1) : ℕ) : ℝ) = 1 := by
    field_simp
  rw [hone, Real.sqrt_one]

lemma transformed_const_zero (X : List (List ℝ)) (j : ℕ) (hne : X ≠ [])
    (hconst : ∃ c, ∀ v ∈ colVals X j, v = c) :
    ∀ w ∈ (colVals X j).map
      (fun v => (v - colMean X X.length j) / colStd X X.length j), w = 0 := by
  obtain ⟨c, hc⟩ := hconst
  intro w hw
  obtain ⟨v, hv, rfl⟩ := List.mem_map.mp hw
  rw [hc v hv, colMean_of_const X j c hne hc, colStd_of_const X j c hne hc,
    sub_self, zero_div]

lemma trainLoop_eq_spec (X : List (List ℝ)) (y : List ℝ) (F : ℕ)
    (hrows : ∀ row ∈ X, row.length = F) (hy : y.length = X.length)
    (hne : X ≠ []) (epochs : ℕ) (lr : ℝ) :
    (trainLoop X y epochs lr).X = X ∧
    (trainLoop X y epochs lr).y = y ∧
    (trainLoop X y epochs lr).weights.length = F ∧
    ((trainLoop X y epochs lr).weights, (trainLoop X y epochs lr).bias,
      (trainLoop X y epochs lr).lr) =
      (List.range epochs).foldl (specEpochStep X y F)
        (List.replicate F 0.0, 0.0, lr) := by
  have hF : (X.headD []).length = F := by
    cases X with
    | nil => exact absurd rfl hne
    | cons r t => exact hrows r (List.mem_cons_self _ _)
  simp only [trainLoop, hF]
  induction epochs with
  | zero =>
      simp
  | succ n ih =>
      obtain ⟨ih1, ih2, ih3, ih4⟩ := ih
      simp only [List.range_succ, List.foldl_append, List.foldl_cons,
        List.foldl_nil]
      have h := epochStep_eq_spec X y F hrows hy _ ih1 ih2 ih3 n
      refine ⟨h.1, h.2.1, h.2.2.1, ?_⟩
      rw [h.2.2.2, ih4]

lemma dotList_map_mul (c : ℝ) : ∀ v x : List ℝ,
    dotList (v.map (fun t => c * t)) x = c * dotList v x := by
  intro v
  induction v with
  | nil => intro x; simp [dotList]
  | cons a t ih =>
      intro x
      cases x with
      | nil => simp [dotList]
      | cons b u =>
          unfold dotList
          rw [List.map_cons, List.zipWith_cons_cons, List.sum_cons,
            List.zipWith_cons_cons, List.sum_cons]
          have h := ih u
          unfold dotList at h
          rw [h]
          ring

lemma dotList_map_neg (w : List ℝ) : ∀ x : List ℝ,
    dotList w (x.map (fun t => -t)) = - dotList w x := by
  induction w with
  | nil => intro x; simp [dotList]
  | cons a t ih =>
      intro x
      cases x with
      | nil => simp [dotList]
      | cons b u =>
          unfold dotList
          rw [List.map_cons, List.zipWith_cons_cons, List.sum_cons,
            List.zipWith_cons_cons, List.sum_cons]
          have h := ih u
          unfold dotList at h
          rw [h]
          ring

lemma dotList_self_nonneg : ∀ x : List ℝ, 0 ≤ dotList x x := by
  intro x
  induction x with
  | nil => simp [dotList]
  | cons a t ih =>
      unfold dotList at ih ⊢
      rw [List.zipWith_cons_cons, List.sum_cons]
      nlinarith [sq_nonneg a]

lemma dotList_self_pos : ∀ x : List ℝ, (∃ v ∈ x, v ≠ 0) →
    0 < dotList x x := by
  intro x
  induction x with
  | nil =>
      rintro ⟨v, hv, _⟩
      cases hv
  | cons a t ih =>
      rintro ⟨v, hv, hne⟩
      have htt := dotList_self_nonneg t
      unfold dotList at htt ⊢
      rw [List.zipWith_cons_cons, List.sum_cons]
      rcases List.mem_cons.mp hv with rfl | hmem
      · have hvv : 0 < v * v := mul_self_pos.mpr hne
        linarith
      · have h := ih ⟨v, hmem, hne⟩
        unfold dotList at h
        nlinarith [sq_nonneg a]

lemma dotList_zero_right (w : List ℝ) : ∀ x : List ℝ,
    (∀ v ∈ x, v = 0) → dotList w x = 0 := by
  induction w with
  | nil => intro x _; simp [dotList]
  | cons a t ih =>
      intro x hx
      cases x with
      | nil => simp [dotList]
      | cons b u =>
          unfold dotList
          rw [List.zipWith_cons_cons, List.sum_cons]
          have hb : b = 0 := hx b (List.mem_cons_self _ _)
          have hu := ih u (fun v hv => hx v (List.mem_cons_of_mem _ hv))
          unfold dotList at hu
          rw [hb, hu, mul_zero, zero_add]

lemma zipWith_map_same (f : ℝ → ℝ → ℝ) (g h : ℝ → ℝ) :
    ∀ l : List ℝ, List.zipWith f (l.map g) (l.map h) =
      l.map (fun x => f (g x) (h x)) := by
  intro l
  induction l with
  | nil => rfl
  | cons a t ih => simp [ih]

lemma zipWith_replicate_left (f : ℝ → ℝ → ℝ) (a : ℝ) :
    ∀ l : List ℝ, List.zipWith f (List.replicate l.length a) l =
      l.map (fun x => f a x) := by
  intro l
  induction l with
  | nil => rfl
  | cons b t ih => simp [List.replicate_succ, ih]

lemma map_zero_mul (v : List ℝ) :
    v.map (fun t => (0:ℝ) * t) = List.replicate v.length 0.0 := by
  induction v with
  | nil => rfl
  | cons a t ih =>
      rw [List.map_cons, List.length_cons, List.replicate_succ, ih]
      congr 1
      norm_num

lemma trainState_mk_weights (X : List (List ℝ)) (y w : List ℝ) (b lr : ℝ) :
    (TrainState.mk X y w b lr).weights = w := rfl

lemma trainState_mk_bias (X : List (List ℝ)) (y w : List ℝ) (b lr : ℝ) :
    (TrainState.mk X y w b lr).bias = b := rfl

lemma model_mk_weights (f : List String) (w : List ℝ) (b : ℝ)
    (me s : List ℝ) : (Model.mk f w b me s).weights = w := rfl

lemma model_mk_means (f : List String) (w : List ℝ) (b : ℝ)
    (me s : List ℝ) : (Model.mk f w b me s).means = me := rfl

lemma model_mk_stds (f : List String) (w : List ℝ) (b : ℝ)
    (me s : List ℝ) : (Model.mk f w b me s).stds = s := rfl

lemma model_mk_features (f : List String) (w : List ℝ) (b : ℝ)
    (me s : List ℝ) : (Model.mk f w b me s).features = f := rfl

lemma train_weights_eq (X : List (List ℝ)) (y : List ℝ) (epochs : ℕ)
    (lr : ℝ) : (train_logistic_regression X y epochs lr).weights =
      (trainLoop X y epochs lr).weights := rfl

lemma train_bias_eq (X : List (List ℝ)) (y : List ℝ) (epochs : ℕ)
    (lr : ℝ) : (train_logistic_regression X y epochs lr).bias =
      (trainLoop X y epochs lr).bias := rfl

lemma two_point_step (v : List ℝ) (c lr : ℝ) (epoch : ℕ) :
    epochStep 2 v.length
      { X := [v, v.map (fun t => -t)], y := [1, 0],
        weights := v.map (fun t => c * t), bias := 0, lr := lr } epoch =
      { X := [v, v.map (fun t => -t)], y := [1, 0],
        weights := v.map (fun t =>
          (c + lr * (1 - logistic (c * dotList v v))) * t),
        bias := 0,
        lr := if epoch % 1000 = 0 ∧ 0 < epoch then lr * 0.9 else lr } := by
  have he1 : errTerm (v.map (fun t => c * t)) 0 (v, (1:ℝ)) =
      logistic (c * dotList v v) - 1 := by
    unfold errTerm
    rw [dotList_map_mul, add_zero]
  have he2 : errTerm (v.map (fun t => c * t))
      0 (v.map (fun t => -t), (0:ℝ)) =
      1 - logistic (c * dotList v v) := by
    unfold errTerm
    rw [dotList_map_neg, dotList_map_mul, add_zero, logistic_neg, sub_zero]
  have hfold1 : (([v, v.map (fun t => -t)].zip ([1, 0] : List ℝ)).foldl
      (gradStep (v.map (fun t => c * t)) 0)
      (0.0, List.replicate v.length 0.0)).1 =
      0.0 + (logistic (c * dotList v v) - 1) +
        (1 - logistic (c * dotList v v)) := by
    show (gradStep (v.map (fun t => c * t)) 0
      (gradStep (v.map (fun t => c * t)) 0
        (0.0, List.replicate v.length 0.0) (v, 1))
      (v.map (fun t => -t), 0)).1 = _
    rw [gradStep_fst, gradStep_fst, he1, he2]
  have hfold2 : (([v, v.map (fun t => -t)].zip ([1, 0] : List ℝ)).foldl
      (gradStep (v.map (fun t => c * t)) 0)
      (0.0, List.replicate v.length 0.0)).2 =
      v.map (fun x => (0.0 + (logistic (c * dotList v v) - 1) * x) +
        (1 - logistic (c * dotList v v)) * (-x)) := by
    show (gradStep (v.map (fun t => c * t)) 0
      (gradStep (v.map (fun t => c * t)) 0
        (0.0, List.replicate v.length 0.0) (v, 1))
      (v.map (fun t => -t), 0)).2 = _
    rw [gradStep_snd, gradStep_snd, he1, he2]
    show List.zipWith _
      (List.zipWith _ (List.replicate v.length 0.0) v) (v.map _) = _
    rw [zipWith_replicate_left, zipWith_map_same]
  simp only [epochStep]
  rw [hfold1, hfold2, zipWith_map_same]
  congr 1
  · apply List.map_congr_left
    intro x _
    show c * x - lr * (((0.0 + (logistic (c * dotList v v) - 1) * x) +
      (1 - logistic (c * dotList v v)) * (-x)) / ((2:ℕ):ℝ)) = _
    have h00 : (0.0:ℝ) = 0 := by norm_num
    rw [h00]
    push_cast
    ring
  · show (0:ℝ) - lr * ((0.0 + (logistic (c * dotList v v) - 1) +
      (1 - logistic (c * dotList v v))) / ((2:ℕ):ℝ)) = 0
    have h00 : (0.0:ℝ) = 0 := by norm_num
    rw [h00]
    push_cast
    ring

lemma two_point_invariant (v : List ℝ) (lr0 : ℝ) (hlr : 0 < lr0) :
    ∀ k : ℕ, ∃ c lr2 : ℝ, 0 ≤ c ∧ (1 ≤ k → 0 < c) ∧ 0 < lr2 ∧
      (List.range k).foldl (epochStep 2 v.length)
        { X := [v, v.map (fun t => -t)], y := [1, 0],
          weights := List.replicate v.length 0.0, bias := 0.0, lr := lr0 } =
      { X := [v, v.map (fun t => -t)], y := [1, 0],
        weights := v.map (fun t => c * t), bias := 0, lr := lr2 } := by
  intro k
  induction k with
  | zero =>
      refine ⟨0, lr0, le_rfl, by omega, hlr, ?_⟩
      rw [List.range_zero, List.foldl_nil]
      congr 1
      · rw [map_zero_mul]
      · norm_num
  | succ k ih =>
      obtain ⟨c, lr2, hc0, _, hlr2, hstate⟩ := ih
      have hσ := logistic_lt_one (c * dotList v v)
      have hm : 0 < lr2 * (1 - logistic (c * dotList v v)) :=
        mul_pos hlr2 (by linarith)
      refine ⟨c + lr2 * (1 - logistic (c * dotList v v)),
        if k % 1000 = 0 ∧ 0 < k then lr2 * 0.9 else lr2,
        by linarith, fun _ => by linarith, ?_, ?_⟩
      · split_ifs
        · nlinarith
        · exact hlr2
      · rw [List.range_succ, List.foldl_append, List.foldl_cons,
          List.foldl_nil, hstate, two_point_step]

lemma two_point_standardized (x1 x2 : List ℝ) (h1 : x1.length = 11)
    (h2 : x2.length = 11) :
    ∃ r1 : List ℝ, r1.length = 11 ∧
      (standardize [x1, x2]).X = [r1, r1.map (fun t => -t)] ∧
      (∀ j, j < 11 → r1.getD j 0 =
        (x1.getD j 0 - colMean [x1, x2] ([x1, x2] : List (List ℝ)).length j)
          / colStd [x1, x2] ([x1, x2] : List (List ℝ)).length j) := by
  have hrows : ∀ row ∈ [x1, x2], row.length = 11 := by
    intro row hrow
    rcases List.mem_cons.mp hrow with rfl | hrow2
    · exact h1
    · rcases List.mem_cons.mp hrow2 with rfl | h3
      · exact h2
      · cases h3
  have hne : ([x1, x2] : List (List ℝ)) ≠ [] := by simp
  have hstd := standardize_eq_partial [x1, x2] 11 hne hrows
  obtain ⟨ilen, irows, _, _, _, idone⟩ :=
    stdPartial_invariant [x1, x2] 11 hrows 11 le_rfl
  obtain ⟨r1, r2, hM⟩ := List.length_eq_two.mp (by rw [ilen]; rfl)
  have hr1len : r1.length = 11 := irows r1 (by rw [hM]; simp)
  have hr2len : r2.length = 11 := irows r2 (by rw [hM]; simp)
  have hmean : ∀ i, colMean [x1, x2] ([x1, x2] : List (List ℝ)).length i =
      (x1.getD i 0 + x2.getD i 0) / 2 := by
    intro i
    unfold colMean colVals
    simp only [List.map_cons, List.map_nil, List.sum_cons, List.sum_nil,
      List.length_cons, List.length_nil]
    norm_num
  have hcols : ∀ j, j < 11 →
      r1.getD j 0 =
        (x1.getD j 0 - colMean [x1, x2] ([x1, x2] : List (List ℝ)).length j)
          / colStd [x1, x2] ([x1, x2] : List (List ℝ)).length j ∧
      r2.getD j 0 =
        (x2.getD j 0 - colMean [x1, x2] ([x1, x2] : List (List ℝ)).length j)
          / colStd [x1, x2] ([x1, x2] : List (List ℝ)).length j := by
    intro j hj
    have hc := (idone j hj).1
    rw [hM] at hc
    unfold colVals at hc
    simp only [List.map_cons, List.map_nil] at hc
    have hA := (List.cons.injEq _ _ _ _).mp hc
    have hB := (List.cons.injEq _ _ _ _).mp hA.2
    exact ⟨hA.1, hB.1⟩
  have hr2 : r2 = r1.map (fun t => -t) := by
    apply List.ext_getElem
    · rw [List.length_map, hr2len, hr1len]
    · intro i hi1 hi2
      have hi : i < 11 := by rw [hr2len] at hi1; exact hi1
      obtain ⟨hA, hB⟩ := hcols i hi
      rw [List.getElem_map]
      rw [← List.getD_eq_getElem r2 0 hi1,
        ← List.getD_eq_getElem r1 0 (by rw [hr1len]; exact hi)]
      rw [hA, hB, hmean i, ← neg_div]
      congr 1
      ring
  refine ⟨r1, hr1len, ?_, fun j hj => (hcols j hj).1⟩
  rw [hstd, hM, hr2]

lemma colStd_pos (X : List (List ℝ)) (n j : ℕ) : 0 < colStd X n j := by
  unfold colStd
  split_ifs with h
  · exact Real.sqrt_pos.mpr h
  · norm_num

lemma mainCore_eq_ok (entries : List Record)
    (hne : (build_dataset entries).filter validLabel ≠ []) :
    mainCore entries = Except.ok
      { features := FEATURES,
        weights := (train_logistic_regression
          (standardize (((build_dataset entries).filter validLabel).map
            extract_features)).X
          (((build_dataset entries).filter validLabel).map
            (fun r => if r.label == some "special" then (1:ℝ) else 0))
          6000 0.08).weights,
        bias := (train_logistic_regression
          (standardize (((build_dataset entries).filter validLabel).map
            extract_features)).X
          (((build_dataset entries).filter validLabel).map
            (fun r => if r.label == some "special" then (1:ℝ) else 0))
          6000 0.08).bias,
        means := (standardize (((build_dataset entries).filter
          validLabel).map extract_features)).means,
        stds := (standardize (((build_dataset entries).filter
          validLabel).map extract_features)).stds } := by
  rcases hfe : (build_dataset entries).filter validLabel with _ | ⟨a, t⟩
  · exact absurd hfe hne
  · simp only [mainCore, hfe]
    rfl

/-! ### Claim theorems -/

/-- C5: the two-branch logistic implementation (`1/(1+e^-z)` for
`z >= 0`, `e^z/(1+e^z)` for `z < 0`) is mathematically equivalent to the
naive formula `1/(1+e^-z)` everywhere. -/
theorem logistic_two_branch_equiv_naive :
    ∀ z : ℝ, logistic z = logisticNaive z :=
  logistic_eq_naive

/-- C6: for every input, `logistic` lies strictly inside `(0, 1)`;
`logistic 0` equals `0.5` exactly; and `logistic` is monotonically
increasing. -/
theorem logistic_bounds_mono :
    (∀ z : ℝ, 0 < logistic z ∧ logistic z < 1) ∧
    logistic 0 = 0.5 ∧
    (∀ a b : ℝ, a < b → logistic a < logistic b) :=
  ⟨fun z => ⟨logistic_pos z, logistic_lt_one z⟩, logistic_zero,
   fun _ _ hab => logistic_strictMono hab⟩

/-- Witness for C6 at the concrete pair `0 < 1`. -/
theorem logistic_bounds_mono_witness : logistic 0 < logistic 1 :=
  logistic_bounds_mono.2.2 0 1 (by norm_num)

/-- C2: `extract_features` returns exactly 11 values in the fixed order
activity, entropy, stdU, stdV, feed, kill, threshold, dt, contrast,
gamma, invert; a missing `metrics` mapping or metric field defaults to
0.0, missing feed/kill/threshold default to 0.0, missing dt/contrast/gamma
default to 1.0, and invert maps by truthiness to 1.0/0.0 with default
false.  The function is total: no record makes it fail. -/
theorem extract_features_spec (entry : Record) :
    (extract_features entry).length = 11 ∧
    extract_features entry =
      [(match entry.metrics with
        | none => 0.0
        | some m => m.activity.getD 0.0),
       (match entry.metrics with
        | none => 0.0
        | some m => m.entropy.getD 0.0),
       (match entry.metrics with
        | none => 0.0
        | some m => m.stdU.getD 0.0),
       (match entry.metrics with
        | none => 0.0
        | some m => m.stdV.getD 0.0),
       (match entry.params with
        | none => 0.0
        | some p => p.feed.getD 0.0),
       (match entry.params with
        | none => 0.0
        | some p => p.kill.getD 0.0),
       (match entry.params with
        | none => 0.0
        | some p => p.threshold.getD 0.0),
       (match entry.params with
        | none => 1.0
        | some p => p.dt.getD 1.0),
       (match entry.params with
        | none => 1.0
        | some p => p.contrast.getD 1.0),
       (match entry.params with
        | none => 1.0
        | some p => p.gamma.getD 1.0),
       (match entry.params with
        | none => 0.0
        | some p => if p.invert.getD false then 1.0 else 0.0)] := by
  obtain ⟨i, label, params, metrics⟩ := entry
  cases params <;> cases metrics <;> exact ⟨rfl, rfl⟩

/-- C10: the trainer only reads the feature matrix and the labels: after
any number of epochs the loop state still carries exactly the `X` and `y`
that were passed in. -/
theorem train_frame (X : List (List ℝ)) (y : List ℝ) (epochs : ℕ)
    (lr : ℝ) :
    (trainLoop X y epochs lr).X = X ∧ (trainLoop X y epochs lr).y = y := by
  suffices h : ∀ (l : List ℕ) (s : TrainState),
      ((l.foldl (epochStep X.length (X.headD []).length) s).X = s.X ∧
       (l.foldl (epochStep X.length (X.headD []).length) s).y = s.y) by
    exact h (List.range epochs) _
  intro l
  induction l with
  | nil => intro s; exact ⟨rfl, rfl⟩
  | cons e t ih =>
      intro s
      rw [List.foldl_cons]
      exact ⟨(ih _).1, (ih _).2⟩

/-- C1: on a matrix of `N >= 1` rows of width `F` with 0/1 labels, the
trainer starts from all-zero weights and zero bias, accumulates for every
epoch the full-batch gradients `gradB = sum of errors` and
`gradW[j] = sum of error_i * X[i][j]`, updates
`bias -= lr * gradB / N` and `weights[j] -= lr * gradW[j] / N`,
multiplies the learning rate by 0.9 after each epoch whose index is a
nonzero multiple of 1000, always runs the full configured epoch count,
and returns exactly the final weights and bias; the loop defaults are
`epochs = 5000` and `lr = 0.05`. -/
theorem train_logistic_regression_spec (X : List (List ℝ)) (y : List ℝ)
    (F : ℕ) (hne : X ≠ []) (hrows : ∀ row ∈ X, row.length = F)
    (hy : y.length = X.length) (hlab : ∀ v ∈ y, v = 0 ∨ v = 1)
    (epochs : ℕ) (lr : ℝ) :
    (train_logistic_regression X y epochs lr).weights =
      (specTrain X y F epochs lr).1 ∧
    (train_logistic_regression X y epochs lr).bias =
      (specTrain X y F epochs lr).2 ∧
    trainDefault X y = train_logistic_regression X y 5000 0.05 := by
  have h := trainLoop_eq_spec X y F hrows hy hne epochs lr
  refine ⟨?_, ?_, rfl⟩
  · exact congrArg Prod.fst h.2.2.2
  · exact congrArg (fun p => p.2.1) h.2.2.2

/-- Witness for C1 at a concrete one-example, one-feature input. -/
theorem train_logistic_regression_spec_witness :
    (train_logistic_regression [[1.0]] [1.0] 1 0.05).weights =
      (specTrain [[1.0]] [1.0] 1 1 0.05).1 :=
  (train_logistic_regression_spec [[1.0]] [1.0] 1 (by simp)
    (by intro row hrow; simp only [List.mem_singleton] at hrow;
        subst hrow; rfl)
    rfl
    (by intro v hv; simp only [List.mem_singleton] at hv; subst hv;
        right; norm_num)
    1 0.05).1

/-- C3: the merged dataset keeps exactly one record per id, and equals
the manual seeds — each replaced whole, in its manual position, by the
last external record carrying its id — followed by the external records
with fresh ids in input order of first occurrence, each carrying the
content of its last occurrence. -/
theorem build_dataset_merge_spec (entries : List Record) :
    ((build_dataset entries).map Record.id).Nodup ∧
    build_dataset entries =
      MANUAL_SEEDS.map (fun m => (lastMatch entries m.id).getD m) ++
      (dedupByIdKeepFirst (entries.filter
        (fun e => !(hasId MANUAL_SEEDS e.id)))).map
        (fun e => (lastMatch entries e.id).getD e) := by
  constructor
  · unfold build_dataset
    apply nodup_map_id_foldl
    rw [manual_foldl_eq]
    exact manual_ids_nodup
  · unfold build_dataset
    rw [manual_foldl_eq,
      foldl_dictInsert_lastMatch entries.length entries le_rfl MANUAL_SEEDS,
      foldl_nil_eq_dedup (entries.filter
        (fun e => !(hasId MANUAL_SEEDS e.id))).length _ le_rfl]
    congr 1
    apply List.map_congr_left
    intro x hx
    have hxmem : x ∈ entries.filter
        (fun e => !(hasId MANUAL_SEEDS e.id)) :=
      dedup_subset _ _ le_rfl x hx
    have hxid : (!(hasId MANUAL_SEEDS x.id)) = true :=
      (List.mem_filter.mp hxmem).2
    rw [lastMatch_filter (fun e => !(hasId MANUAL_SEEDS e.id)) x.id entries
      (fun y _ hy => by
        show (!(hasId MANUAL_SEEDS y.id)) = true
        rw [hy]
        exact hxid)]

/-- C4: standardization computes per column the arithmetic mean, the
Bessel-corrected sample variance with the `std = 1` fallback at exactly
zero variance, and rewrites each entry to `(x - mean) / std`; afterwards
every column has mean 0 and sample standard deviation 1, except an
originally constant column whose entries all become exactly 0. -/
theorem standardize_spec (X : List (List ℝ)) (hne : X ≠ [])
    (hrows : ∀ row ∈ X, row.length = 11) :
    ∀ j, j < 11 →
      ((standardize X).means.getD j 0 = colMean X X.length j ∧
       (standardize X).stds.getD j 0 = colStd X X.length j ∧
       colVals (standardize X).X j =
         (colVals X j).map
           (fun v => (v - colMean X X.length j) / colStd X X.length j)) ∧
      listMean (colVals (standardize X).X j) = 0 ∧
      ((¬ ∃ c, ∀ v ∈ colVals X j, v = c) →
        listSampleStd (colVals (standardize X).X j) = 1) ∧
      ((∃ c, ∀ v ∈ colVals X j, v = c) →
        ∀ w ∈ colVals (standardize X).X j, w = 0) := by
  intro j hj
  have inv := stdPartial_invariant X 11 hrows 11 le_rfl
  have hstd := standardize_eq_partial X 11 hne hrows
  obtain ⟨_, _, _, _, _, hdone⟩ := inv
  obtain ⟨d1, d2, d3⟩ := hdone j hj
  rw [hstd]
  refine ⟨⟨d2, d3, d1⟩, ?_, ?_, ?_⟩
  · rw [d1]
    exact transformed_listMean X j hne
  · intro hnc
    rw [d1]
    exact transformed_sampleStd X j hne hnc
  · intro hc
    rw [d1]
    exact transformed_const_zero X j hne hc

/-- Witness for C4 at a concrete one-row matrix, column 0. -/
theorem standardize_spec_witness :
    listMean (colVals (standardize [List.replicate 11 (1:ℝ)]).X 0) = 0 :=
  (standardize_spec [List.replicate 11 (1:ℝ)] (by simp)
    (by intro row hrow; simp only [List.mem_singleton] at hrow;
        subst hrow; simp)
    0 (by norm_num)).2.1

/-- C7: when merging and filtering to labels "special"/"normal" leaves an
empty dataset, the run fails with the fatal configuration error before
any optimization and produces no model; otherwise the run succeeds, and
records with any other label are silently excluded from the filtered
dataset without an error. -/
theorem empty_dataset_spec (entries : List Record) :
    ((build_dataset entries).filter validLabel = [] →
      mainCore entries = Except.error "No valid data to train on") ∧
    ((build_dataset entries).filter validLabel ≠ [] →
      ∃ m : Model, mainCore entries = Except.ok m) ∧
    (∀ r ∈ build_dataset entries,
      r.label ≠ some "special" → r.label ≠ some "normal" →
        r ∉ (build_dataset entries).filter validLabel) := by
  refine ⟨?_, ?_, ?_⟩
  · intro hempty
    simp only [mainCore, hempty]
    rfl
  · intro hne
    exact ⟨_, mainCore_eq_ok entries hne⟩
  · intro r _ h1 h2 hmem
    rw [List.mem_filter] at hmem
    have hv := hmem.2
    unfold validLabel at hv
    rw [Bool.or_eq_true, beq_iff_eq, beq_iff_eq] at hv
    rcases hv with hv | hv
    · exact h1 hv
    · exact h2 hv

/-- Witness for C7: overriding all nine manual seeds with unlabeled
records makes the run fail; the built-in seeds alone make it succeed. -/
theorem empty_dataset_spec_witness :
    mainCore invalidatingEntries =
      Except.error "No valid data to train on" ∧
    ∃ m : Model, mainCore [] = Except.ok m :=
  ⟨(empty_dataset_spec invalidatingEntries).1 (by rfl),
   (empty_dataset_spec []).2.1
     (fun h => absurd (congrArg List.length h) (by decide))⟩

/-- Counterexample to C8 as stated: all nine manual seeds carry the label
"special", not eight of them. -/
theorem manual_seeds_nine_special :
    (MANUAL_SEEDS.filter (fun r => r.label == some "special")).length = 9 ∧
    ¬ (MANUAL_SEEDS.filter
      (fun r => r.label == some "special")).length = 8 := by
  constructor
  · decide
  · decide

/-- C8 amended: the manual seed set consists of 9 records, all of them
labeled "special" (one having degenerate all-zero metrics), and with no
external feedback the pipeline completes and produces a Model whose
weights, means, and stds each have length exactly 11 and whose features
list is exactly the fixed order verbatim. -/
theorem manual_seed_pipeline :
    MANUAL_SEEDS.length = 9 ∧
    (∀ r ∈ MANUAL_SEEDS, r.label = some "special") ∧
    (∃ r ∈ MANUAL_SEEDS, r.metrics =
      some { activity := some 0.0, entropy := some 0.0, stdU := some 0.0,
             stdV := some 0.0 }) ∧
    ∃ m : Model, mainCore [] = Except.ok m ∧
      m.weights.length = 11 ∧ m.means.length = 11 ∧ m.stds.length = 11 ∧
      m.features = ["activity", "entropy", "stdU", "stdV", "feed", "kill",
        "threshold", "dt", "contrast", "gamma", "invert"] := by
  refine ⟨rfl, by decide, ?_, ?_⟩
  · exact ⟨MANUAL_SEEDS.get ⟨6, by decide⟩, List.get_mem _ _ _, rfl⟩
  · have hds : (build_dataset []).filter validLabel = MANUAL_SEEDS := by
      rw [show build_dataset [] = MANUAL_SEEDS from manual_foldl_eq]
      exact List.filter_eq_self.mpr (by decide)
    have hdsne : (build_dataset []).filter validLabel ≠ [] := by
      rw [hds]
      exact fun h => absurd (congrArg List.length h) (by decide)
    have hok := mainCore_eq_ok [] hdsne
    rw [hds] at hok
    have hXrows : ∀ row ∈ MANUAL_SEEDS.map extract_features,
        row.length = 11 := by
      intro row hrow
      obtain ⟨r, _, rfl⟩ := List.mem_map.mp hrow
      exact extract_features_length r
    have hXne : MANUAL_SEEDS.map extract_features ≠ [] :=
      fun h => absurd (congrArg List.length h) (by decide)
    have hstd := standardize_eq_partial (MANUAL_SEEDS.map extract_features)
      11 hXne hXrows
    have inv := stdPartial_invariant (MANUAL_SEEDS.map extract_features)
      11 hXrows 11 le_rfl
    obtain ⟨ilen, irows, im, is', _, _⟩ := inv
    have hstdrows : ∀ row ∈
        (standardize (MANUAL_SEEDS.map extract_features)).X,
        row.length = 11 := by
      rw [hstd]; exact irows
    have hstdlen : (standardize (MANUAL_SEEDS.map extract_features)).X.length
        = 9 := by
      rw [hstd, ilen, List.length_map]
      rfl
    have hstdne : (standardize (MANUAL_SEEDS.map extract_features)).X ≠ [] :=
      fun h => absurd (hstdlen.symm.trans (congrArg List.length h)) (by decide)
    have hy : (MANUAL_SEEDS.map
        (fun r => if r.label == some "special" then (1:ℝ) else 0)).length =
        (standardize (MANUAL_SEEDS.map extract_features)).X.length := by
      rw [hstdlen, List.length_map]
      rfl
    have htr := trainLoop_eq_spec
      (standardize (MANUAL_SEEDS.map extract_features)).X
      (MANUAL_SEEDS.map
        (fun r => if r.label == some "special" then (1:ℝ) else 0))
      11 hstdrows hy hstdne 6000 0.08
    refine ⟨_, hok, ?_, ?_, ?_, ?_⟩
    · rw [model_mk_weights, train_weights_eq]
      exact htr.2.2.1
    · rw [model_mk_means, hstd]
      exact im
    · rw [model_mk_stds, hstd]
      exact is'
    · rw [model_mk_features]
      rfl

/-- C9: for a dataset of exactly two feature vectors — one labeled
"special" (y = 1), one "normal" (y = 0) — that are linearly separable
after standardization, training with the default epoch budget yields a
model with `logistic(w.x + b) > 0.5` on the special example and `< 0.5`
on the normal one. -/
theorem two_point_training (x1 x2 : List ℝ) (h1 : x1.length = 11)
    (h2 : x2.length = 11)
    (hsep : ∃ w b, 0 < dotList w ((standardize [x1, x2]).X.getD 0 []) + b ∧
      dotList w ((standardize [x1, x2]).X.getD 1 []) + b < 0) :
    0.5 < logistic (dotList
        (train_logistic_regression (standardize [x1, x2]).X [1, 0]
          5000 0.05).weights
        ((standardize [x1, x2]).X.getD 0 []) +
      (train_logistic_regression (standardize [x1, x2]).X [1, 0]
        5000 0.05).bias) ∧
    logistic (dotList
        (train_logistic_regression (standardize [x1, x2]).X [1, 0]
          5000 0.05).weights
        ((standardize [x1, x2]).X.getD 1 []) +
      (train_logistic_regression (standardize [x1, x2]).X [1, 0]
        5000 0.05).bias) < 0.5 := by
  obtain ⟨r1, hr1len, hMX, _⟩ := two_point_standardized x1 x2 h1 h2
  rw [hMX] at hsep ⊢
  rw [show ([r1, r1.map (fun t => -t)] : List (List ℝ)).getD 0 [] = r1
      from rfl,
    show ([r1, r1.map (fun t => -t)] : List (List ℝ)).getD 1 [] =
      r1.map (fun t => -t) from rfl] at hsep ⊢
  obtain ⟨w, b, hposs, hnegs⟩ := hsep
  rw [dotList_map_neg] at hnegs
  have hD : 0 < dotList w r1 := by linarith
  have hex : ∃ t ∈ r1, t ≠ 0 := by
    by_contra hcon
    push_neg at hcon
    rw [dotList_zero_right w r1 hcon] at hD
    linarith
  have hS : 0 < dotList r1 r1 := dotList_self_pos r1 hex
  obtain ⟨c, lr2, hc0, hc1, hlr2, hstate⟩ :=
    two_point_invariant r1 0.05 (by norm_num) 5000
  have hc : 0 < c := hc1 (by norm_num)
  have htl : trainLoop [r1, r1.map (fun t => -t)] [1, 0] 5000 0.05 =
      { X := [r1, r1.map (fun t => -t)], y := [1, 0],
        weights := r1.map (fun t => c * t), bias := 0, lr := lr2 } := by
    rw [show trainLoop [r1, r1.map (fun t => -t)] [1, 0] 5000 0.05 =
      (List.range 5000).foldl (epochStep 2 r1.length)
        { X := [r1, r1.map (fun t => -t)], y := [1, 0],
          weights := List.replicate r1.length 0.0, bias := 0.0,
          lr := 0.05 } from rfl]
    exact hstate
  rw [train_weights_eq, train_bias_eq, htl, trainState_mk_weights,
    trainState_mk_bias]
  rw [dotList_map_neg, dotList_map_mul, add_zero, add_zero]
  constructor
  · exact logistic_gt_half_of_pos (mul_pos hc hS)
  · apply logistic_lt_half_of_neg
    have := mul_pos hc hS
    linarith

/-- Witness for C9 at the concrete pair `e1 = (1,0,...,0)` and the zero
vector, which are separable after standardization. -/
theorem two_point_training_witness :
    0.5 < logistic (dotList
        (train_logistic_regression
          (standardize [(1:ℝ) :: List.replicate 10 0,
            List.replicate 11 (0:ℝ)]).X [1, 0] 5000 0.05).weights
        ((standardize [(1:ℝ) :: List.replicate 10 0,
          List.replicate 11 (0:ℝ)]).X.getD 0 []) +
      (train_logistic_regression
        (standardize [(1:ℝ) :: List.replicate 10 0,
          List.replicate 11 (0:ℝ)]).X [1, 0] 5000 0.05).bias) := by
  have hsep : ∃ w b,
      0 < dotList w ((standardize [(1:ℝ) :: List.replicate 10 0,
        List.replicate 11 (0:ℝ)]).X.getD 0 []) + b ∧
      dotList w ((standardize [(1:ℝ) :: List.replicate 10 0,
        List.replicate 11 (0:ℝ)]).X.getD 1 []) + b < 0 := by
    obtain ⟨r1, hr1len, hMX, hvals⟩ :=
      two_point_standardized ((1:ℝ) :: List.replicate 10 0)
        (List.replicate 11 (0:ℝ)) (by simp) (by simp)
    have hm0 : colMean [(1:ℝ) :: List.replicate 10 0,
        List.replicate 11 (0:ℝ)]
        ([(1:ℝ) :: List.replicate 10 0,
          List.replicate 11 (0:ℝ)] : List (List ℝ)).length 0 = 1/2 := by
      unfold colMean colVals
      rw [show (List.map (fun row => row.getD 0 0)
        ([(1:ℝ) :: List.replicate 10 0,
          List.replicate 11 (0:ℝ)] : List (List ℝ))) = [1, 0] from rfl]
      rw [show (([(1:ℝ) :: List.replicate 10 0,
        List.replicate 11 (0:ℝ)] : List (List ℝ)).length) = 2 from rfl]
      norm_num
    have hstdpos : 0 < colStd [(1:ℝ) :: List.replicate 10 0,
        List.replicate 11 (0:ℝ)]
        ([(1:ℝ) :: List.replicate 10 0,
          List.replicate 11 (0:ℝ)] : List (List ℝ)).length 0 :=
      colStd_pos _ _ _
    have hr10 : 0 < r1.getD 0 0 := by
      rw [hvals 0 (by norm_num)]
      rw [show ((1:ℝ) :: List.replicate 10 0).getD 0 0 = 1 from rfl]
      rw [hm0]
      exact div_pos (by norm_num) hstdpos
    have hmem : r1.getD 0 0 ∈ r1 := by
      rw [List.getD_eq_getElem r1 0 (by rw [hr1len]; norm_num)]
      exact List.getElem_mem _
    have hS : 0 < dotList r1 r1 :=
      dotList_self_pos r1 ⟨r1.getD 0 0, hmem, ne_of_gt hr10⟩
    refine ⟨r1, 0, ?_, ?_⟩
    · rw [hMX, show ([r1, r1.map (fun t => -t)] :
        List (List ℝ)).getD 0 [] = r1 from rfl, add_zero]
      exact hS
    · rw [hMX, show ([r1, r1.map (fun t => -t)] :
        List (List ℝ)).getD 1 [] = r1.map (fun t => -t) from rfl,
        add_zero, dotList_map_neg]
      linarith
  exact (two_point_training ((1:ℝ) :: List.replicate 10 0)
    (List.replicate 11 (0:ℝ)) (by simp) (by simp) hsep).1

end KUE
